import Mathlib

/-!
Shallow embedding of `DeepRegFinder/nn_models.py` over the reals.

Tensors are modelled as (nested) lists of real numbers; a batch of flat
vectors is a `List (List ℝ)` (rows), a batched 1-D multi-channel signal is a
`List (List (List ℝ))` (batch x channels x length).  Layer parameters are
explicit structure fields.  Randomness (dropout masks, initializer draws) is
modelled by explicit oracle arguments.  Dynamically-ranked results (after
`torch.squeeze`) are modelled by a `Tensor` record carrying its shape.
-/

noncomputable section

namespace DeepRegFinder

/-- Dot product of two flat real vectors (truncating zip, as both operands in
the model always have matching lengths where it matters). -/
def dot (w x : List ℝ) : ℝ := (List.zipWith (fun a b => a * b) w x).sum

/-- Parameters of a `torch.nn.Linear` layer: `weight` is a list of rows
(one row per output feature), `bias` one entry per output feature. -/
structure Linear where
  weight : List (List ℝ)
  bias : List ℝ

/-- Well-formedness of a linear layer for `inF` input and `outF` output
features, mirroring the tensor shapes `torch.nn.Linear(inF, outF)` creates. -/
def Linear.wf (l : Linear) (inF outF : Nat) : Prop :=
  l.weight.length = outF ∧ (∀ r ∈ l.weight, r.length = inF) ∧ l.bias.length = outF

/-- `y = W x + b`, one output entry per (row, bias) pair. -/
def Linear.run (l : Linear) (x : List ℝ) : List ℝ :=
  List.zipWith (fun w b => dot w x + b) l.weight l.bias

/-- `torch.nn.Softplus` applied elementwise: `log (1 + exp t)`. -/
def softplusV (x : List ℝ) : List ℝ := x.map (fun t => Real.log (1 + Real.exp t))

/-- `torch.nn.Softmax` over a flat class-score vector. -/
def softmaxV (x : List ℝ) : List ℝ :=
  x.map (fun t => Real.exp t / (x.map Real.exp).sum)

/-- `torch.nn.Dropout p`: identity in evaluation mode; in training mode each
position is zeroed or rescaled by `1/(1-p)` according to the Bernoulli draw
`mask i` (the draws are an explicit oracle argument). -/
def dropout (p : ℝ) (training : Bool) (mask : Nat → Bool) (x : List ℝ) : List ℝ :=
  if training then x.mapIdx (fun i v => if mask i then v / (1 - p) else 0) else x

/-- The `KimNet` module: configuration plus the four linear layers of the
`nn.Sequential` pipeline (the parameterless Softplus/Dropout/Softmax layers
carry no state). -/
structure KimNet where
  bins : Nat
  marks : Nat
  nb_cls : Nat
  fc1 : Linear
  fc2 : Linear
  fc3 : Linear
  fc4 : Linear

/-- Shapes produced by `KimNet.__init__(bins, marks, nb_cls)`:
`Linear(bins*marks, 600)`, `Linear(600, 500)`, `Linear(500, 400)`,
`Linear(400, nb_cls)`. -/
def KimNet.wf (net : KimNet) : Prop :=
  net.fc1.wf (net.bins * net.marks) 600 ∧ net.fc2.wf 600 500 ∧
  net.fc3.wf 500 400 ∧ net.fc4.wf 400 net.nb_cls

/-- `self.model` of `KimNet`: the sequential pipeline
Linear → Softplus → Linear → Softplus → Linear → Softplus → Dropout(0.5) →
Linear → Softmax(dim=1), applied to one row of the batch. -/
def KimNet.model (net : KimNet) (training : Bool) (mask : Nat → Bool)
    (x : List ℝ) : List ℝ :=
  softmaxV (net.fc4.run (dropout (1/2) training mask
    (softplusV (net.fc3.run (softplusV (net.fc2.run (softplusV (net.fc1.run x))))))))

/-- Row `i` of `x.view(-1, k)`: elements `[i*k, (i+1)*k)` of the flat data. -/
def chunkRows (k : Nat) (xs : List ℝ) : List (List ℝ) :=
  (List.range (xs.length / k)).map (fun i => (xs.drop (i * k)).take k)

/-- `x.view((-1, k))` on the flat (row-major) data of `x`: succeeds exactly
when `k` is positive and divides the total element count, reinterpreting the
data as `length / k` rows of `k`; otherwise it is a runtime shape error. -/
def view2 (k : Nat) (xs : List ℝ) : Option (List (List ℝ)) :=
  if 0 < k ∧ k ∣ xs.length then some (chunkRows k xs) else none

/-- Elementwise `torch.add` of two batches of rows. -/
def matAdd (a b : List (List ℝ)) : List (List ℝ) :=
  List.zipWith (List.zipWith (fun u v => u + v)) a b

/-- Elementwise `torch.div(_, 2)` of a batch of rows. -/
def matHalf (a : List (List ℝ)) : List (List ℝ) :=
  a.map (fun r => r.map (fun v => v / 2))

/-- Elementwise `torch.log` of a batch of rows. -/
def matLog (a : List (List ℝ)) : List (List ℝ) :=
  a.map (fun r => r.map Real.log)

/-- `KimNet.forward(histone_forward, histone_reverse)`.  Both inputs are the
flat (row-major) data of the incoming tensors; `view2` models the
`view((-1, bins*marks))` reshape.  `maskF i` (resp. `maskR i`) is the dropout
draw oracle for row `i` of the forward (resp. reverse) pass. -/
def KimNet.forward (net : KimNet) (training : Bool)
    (maskF maskR : Nat → Nat → Bool)
    (histone_forward : List ℝ) (histone_reverse : Option (List ℝ)) :
    Option (List (List ℝ)) :=
  match view2 (net.bins * net.marks) histone_forward with
  | none => none
  | some rows =>
    let o := rows.mapIdx (fun i r => net.model training (maskF i) r)
    match histone_reverse with
    | none => some (matLog o)
    | some hr =>
      match view2 (net.bins * net.marks) hr with
      | none => none
      | some rows2 =>
        let o2 := rows2.mapIdx (fun i r => net.model training (maskR i) r)
        some (matLog (matHalf (matAdd o o2)))

/-- Parameters of a `torch.nn.Conv1d` layer: `weight` is outCh x inCh x
kernel, `bias` has one entry per output channel. -/
structure Conv1d where
  weight : List (List (List ℝ))
  bias : List ℝ
  kernel : Nat
  padding : Nat

/-- Shapes produced by `torch.nn.Conv1d(inCh, outCh, k, padding = p)`. -/
def Conv1d.wf (c : Conv1d) (inCh outCh k p : Nat) : Prop :=
  c.weight.length = outCh ∧
  (∀ oc ∈ c.weight, oc.length = inCh ∧ ∀ ic ∈ oc, ic.length = k) ∧
  c.bias.length = outCh ∧ c.kernel = k ∧ c.padding = p

/-- Cross-correlation of one sample (channels x length); the input is padded
with `padding` zeros on both sides of every channel, and output position `t`
of output channel `oc` is `bias[oc] + Σ_ic Σ_j w[oc][ic][j] * xpad[ic][t+j]`.
Output length is `L + 2*padding - kernel + 1`. -/
def Conv1d.run (c : Conv1d) (x : List (List ℝ)) : List (List ℝ) :=
  let L := (x.head?.getD []).length
  let xp := x.map (fun ch => List.replicate c.padding 0 ++ ch ++ List.replicate c.padding 0)
  List.zipWith (fun wOut b =>
      (List.range (L + 2 * c.padding + 1 - c.kernel)).map (fun t =>
        b + (List.zipWith (fun wIn chp =>
              ((List.range c.kernel).map (fun j => wIn.getD j 0 * chp.getD (t + j) 0)).sum)
            wOut xp).sum))
    c.weight c.bias

/-- Parameters of a `torch.nn.BatchNorm1d` layer (affine weights and the
running statistics used in evaluation mode). -/
structure BatchNorm1d where
  gamma : List ℝ
  beta : List ℝ
  mean : List ℝ
  variance : List ℝ
  eps : ℝ

/-- Shapes produced by `torch.nn.BatchNorm1d(ch)`. -/
def BatchNorm1d.wf (bn : BatchNorm1d) (ch : Nat) : Prop :=
  bn.gamma.length = ch ∧ bn.beta.length = ch ∧
  bn.mean.length = ch ∧ bn.variance.length = ch

/-- Evaluation-mode batch normalization of one sample: channel `c` is
normalized by the running statistics and affinely transformed. -/
def BatchNorm1d.run (bn : BatchNorm1d) (x : List (List ℝ)) : List (List ℝ) :=
  x.mapIdx (fun c ch => ch.map (fun v =>
    (v - bn.mean.getD c 0) / Real.sqrt (bn.variance.getD c 0 + bn.eps)
      * bn.gamma.getD c 0 + bn.beta.getD c 0))

/-- `nn.LeakyReLU()` (slope 1/100) if the flag is set, else `nn.ReLU()`,
applied elementwise to one sample. -/
def applyAct (leaky : Bool) (x : List (List ℝ)) : List (List ℝ) :=
  x.map (fun ch => ch.map (fun v =>
    if leaky then (if v < 0 then v * (1/100) else v) else max v 0))

/-- `nn.MaxPool1d(2, stride=2)` on one sample: output position `t` of a
channel is the maximum of input positions `2t` and `2t+1`. -/
def maxPool2 (x : List (List ℝ)) : List (List ℝ) :=
  x.map (fun ch => (List.range (ch.length / 2)).map (fun t =>
    max (ch.getD (2 * t) 0) (ch.getD (2 * t + 1) 0)))

/-- `nn.AdaptiveAvgPool1d(1)` on one sample: each channel collapses to its
average. -/
def adaptiveAvgPool1 (x : List (List ℝ)) : List (List ℝ) :=
  x.map (fun ch => [ch.sum / (ch.length : ℝ)])

/-- `nn.Softmax(dim=1)` on one sample (channels x length): at every position
`t` the scores are normalized across channels. -/
def colExpSum (x : List (List ℝ)) (t : Nat) : ℝ :=
  (x.map (fun ch => Real.exp (ch.getD t 0))).sum

def softmaxChannels (x : List (List ℝ)) : List (List ℝ) :=
  x.map (fun ch => ch.mapIdx (fun t v => Real.exp v / colExpSum x t))

/-- The `ConvNet` module: configuration plus the parameters of its five
convolutions and four batch-normalization layers. -/
structure ConvNet where
  marks : Nat
  nb_cls : Nat
  use_leakyrelu : Bool
  conv1 : Conv1d
  bn1 : BatchNorm1d
  conv2 : Conv1d
  bn2 : BatchNorm1d
  conv3 : Conv1d
  bn3 : BatchNorm1d
  conv4 : Conv1d
  bn4 : BatchNorm1d
  conv5 : Conv1d

/-- Shapes produced by `ConvNet.__init__(marks, nb_cls, use_leakyrelu)`:
`Conv1d(marks,32,7,padding=3)`, `BatchNorm1d(32)`, `Conv1d(32,32,3,padding=1)`,
`BatchNorm1d(32)`, `Conv1d(32,64,3,padding=1)`, `BatchNorm1d(64)`,
`Conv1d(64,64,3,padding=1)`, `BatchNorm1d(64)`, `Conv1d(64,nb_cls,1)`. -/
def ConvNet.wf (net : ConvNet) : Prop :=
  net.conv1.wf net.marks 32 7 3 ∧ net.bn1.wf 32 ∧
  net.conv2.wf 32 32 3 1 ∧ net.bn2.wf 32 ∧
  net.conv3.wf 32 64 3 1 ∧ net.bn3.wf 64 ∧
  net.conv4.wf 64 64 3 1 ∧ net.bn4.wf 64 ∧
  net.conv5.wf 64 net.nb_cls 1 0

def ConvNet.layer_one (net : ConvNet) (x : List (List ℝ)) : List (List ℝ) :=
  applyAct net.use_leakyrelu (net.bn1.run (net.conv1.run x))

def ConvNet.layer_two (net : ConvNet) (x : List (List ℝ)) : List (List ℝ) :=
  maxPool2 (applyAct net.use_leakyrelu (net.bn2.run (net.conv2.run x)))

def ConvNet.layer_three (net : ConvNet) (x : List (List ℝ)) : List (List ℝ) :=
  applyAct net.use_leakyrelu (net.bn3.run (net.conv3.run x))

def ConvNet.layer_four (net : ConvNet) (x : List (List ℝ)) : List (List ℝ) :=
  maxPool2 (applyAct net.use_leakyrelu (net.bn4.run (net.conv4.run x)))

def ConvNet.final_layer (net : ConvNet) (x : List (List ℝ)) : List (List ℝ) :=
  softmaxChannels (net.conv5.run (adaptiveAvgPool1 x))

/-- `_forward_prop` of `ConvNet.forward`, on one sample. -/
def ConvNet.forward_prop (net : ConvNet) (x : List (List ℝ)) : List (List ℝ) :=
  net.final_layer (net.layer_four (net.layer_three (net.layer_two (net.layer_one x))))

/-- A dynamically-ranked tensor: its shape (list of dimension sizes) and its
flat row-major data. -/
structure Tensor where
  shape : List Nat
  data : List ℝ

/-- `torch.squeeze` removes every dimension of size 1. -/
def squeezeShape (s : List Nat) : List Nat := s.filter (fun d => d ≠ 1)

/-- The shape of a rectangular batch x channels x length nested list,
measured from its first element. -/
def shape3 (x : List (List (List ℝ))) : List Nat :=
  [x.length, (x.head?.getD []).length, ((x.head?.getD []).head?.getD []).length]

/-- Row-major flat data of a batch x channels x length nested list. -/
def flatten3 (x : List (List (List ℝ))) : List ℝ :=
  (x.map (fun s => s.flatten)).flatten

/-- Elementwise `torch.add` of two equally-shaped batches of samples. -/
def batAdd (a b : List (List (List ℝ))) : List (List (List ℝ)) :=
  List.zipWith (List.zipWith (List.zipWith (fun u v => u + v))) a b

/-- Elementwise `torch.div(_, 2)` of a batch of samples. -/
def batHalf (a : List (List (List ℝ))) : List (List (List ℝ)) :=
  a.map (fun s => s.map (fun ch => ch.map (fun v => v / 2)))

/-- Elementwise `torch.log` of a batch of samples. -/
def batLog (a : List (List (List ℝ))) : List (List (List ℝ)) :=
  a.map (fun s => s.map (fun ch => ch.map Real.log))

/-- `ConvNet.forward(histone_forward, histone_reverse)`: run every sample
through `_forward_prop`, average with the reverse-strand result when present,
then `torch.squeeze(torch.log(o))`. -/
def ConvNet.forward (net : ConvNet) (histone_forward : List (List (List ℝ)))
    (histone_reverse : Option (List (List (List ℝ)))) : Tensor :=
  let o := histone_forward.map net.forward_prop
  let oo := match histone_reverse with
    | none => o
    | some hr => batHalf (batAdd o (hr.map net.forward_prop))
  let lg := batLog oo
  ⟨squeezeShape (shape3 lg), flatten3 lg⟩

/-- `ConvNet.__init__`: the `assert nb_cls > 1` precondition guards the
construction; the layer parameters (created by the framework's layer
constructors) are passed in explicitly. -/
def ConvNet.make (marks nb_cls : Nat) (use_leakyrelu : Bool)
    (c1 : Conv1d) (b1 : BatchNorm1d) (c2 : Conv1d) (b2 : BatchNorm1d)
    (c3 : Conv1d) (b3 : BatchNorm1d) (c4 : Conv1d) (b4 : BatchNorm1d)
    (c5 : Conv1d) : Except String ConvNet :=
  if 1 < nb_cls then
    .ok ⟨marks, nb_cls, use_leakyrelu, c1, b1, c2, b2, c3, b3, c4, b4, c5⟩
  else .error "output layer size must be at least 2."

/-- The layer kinds occurring in the two models, for the `init_weights`
visitor; parameterized layers carry their parameters. -/
inductive Layer where
  | conv1d (weight : List (List (List ℝ))) (bias : List ℝ)
  | linear (weight : List (List ℝ)) (bias : List ℝ)
  | batchNorm1d (gamma beta : List ℝ)
  | softplus
  | relu
  | leakyRelu
  | dropoutLayer (p : ℝ)
  | softmaxLayer (dim : Nat)
  | maxPool1d (kernel stride : Nat)
  | adaptiveAvgPool1d (outputSize : Nat)

def Layer.isConv1d : Layer → Bool
  | .conv1d _ _ => true
  | _ => false

def Layer.isLinear : Layer → Bool
  | .linear _ _ => true
  | _ => false

/-- Fan-in of a conv weight (in-channels times kernel size), as the framework
computes it from the weight's shape. -/
def convFanIn (w : List (List (List ℝ))) : Nat :=
  (w.head?.getD []).length * ((w.head?.getD []).head?.getD []).length

/-- Fan-in of a linear weight (the in-feature count). -/
def linearFanIn (w : List (List ℝ)) : Nat := (w.head?.getD []).length

/-- Model of the framework's `kaiming_uniform_(w, nonlinearity='relu')`:
every entry is redrawn from the uniform distribution on
`[-sqrt(6/fanIn), sqrt(6/fanIn)]` (rectifier gain `sqrt 2` times
`sqrt(3/fanIn)`); `draws` is the raw `[-1, 1]` sample oracle. -/
def kaimingUniform3 (draws : Nat → Nat → Nat → ℝ)
    (w : List (List (List ℝ))) : List (List (List ℝ)) :=
  w.mapIdx (fun o oc => oc.mapIdx (fun i ic => ic.mapIdx (fun j _ =>
    Real.sqrt (6 / (convFanIn w : ℝ)) * draws o i j)))

/-- Model of the framework's `kaiming_normal_(w, nonlinearity='relu')`:
every entry is the standard-normal draw scaled by the standard deviation
`sqrt(2/fanIn)` (rectifier gain `sqrt 2` over `sqrt fanIn`). -/
def kaimingNormal2 (draws : Nat → Nat → ℝ)
    (w : List (List ℝ)) : List (List ℝ) :=
  w.mapIdx (fun i row => row.mapIdx (fun j _ =>
    Real.sqrt (2 / (linearFanIn w : ℝ)) * draws i j))

/-- Model of `nn.init.zeros_`: every entry becomes 0, the shape is kept. -/
def zerosLike (b : List ℝ) : List ℝ := b.map (fun _ => 0)

/-- `init_weights(m)`: Kaiming-uniform weights and zero bias for conv
layers, Kaiming-normal weights and zero bias for linear layers, and no
effect on any other layer.  The in-place mutation of the Python code is
modelled by returning the updated layer. -/
def init_weights (udraws : Nat → Nat → Nat → ℝ) (ndraws : Nat → Nat → ℝ)
    (m : Layer) : Layer :=
  match m with
  | .conv1d w b => .conv1d (kaimingUniform3 udraws w) (zerosLike b)
  | .linear w b => .linear (kaimingNormal2 ndraws w) (zerosLike b)
  | m => m

/-- Spec-refinement definition (from the spec's words): the dual-pass MLP
evaluation written with an explicit pipeline invoked once per strand, where
the two passes are allowed to use two distinct parameter sets `net1` and
`net2`; the spec's shared-weight property says `forward` is this function
diagonally instantiated with one single parameter set. -/
def KimNet.forwardMixed (net1 net2 : KimNet) (training : Bool)
    (maskF maskR : Nat → Nat → Bool)
    (histone_forward histone_reverse : List ℝ) : Option (List (List ℝ)) :=
  match view2 (net1.bins * net1.marks) histone_forward with
  | none => none
  | some rows =>
    let o := rows.mapIdx (fun i r => net1.model training (maskF i) r)
    match view2 (net2.bins * net2.marks) histone_reverse with
    | none => none
    | some rows2 =>
      let o2 := rows2.mapIdx (fun i r => net2.model training (maskR i) r)
      some (matLog (matHalf (matAdd o o2)))

/-- Spec-refinement definition (from the spec's words): the dual-pass
convolutional evaluation with an explicit per-strand parameter set. -/
def ConvNet.forwardMixed (net1 net2 : ConvNet)
    (histone_forward histone_reverse : List (List (List ℝ))) : Tensor :=
  let o := batHalf (batAdd (histone_forward.map net1.forward_prop)
    (histone_reverse.map net2.forward_prop))
  let lg := batLog o
  ⟨squeezeShape (shape3 lg), flatten3 lg⟩

/-- Spec-refinement definition (from the spec's words for the MLP pipeline):
linear projection to width 600, smooth activation, linear to 500, activation,
linear to 400, activation, stochastic zeroing regularizer of rate 0.5 active
only in training mode, linear to the class count, then softmax. -/
def specMLPpipeline (fc1 fc2 fc3 fc4 : Linear) (training : Bool)
    (mask : Nat → Bool) (x : List ℝ) : List ℝ :=
  softmaxV (fc4.run (dropout (1/2) training mask
    (softplusV (fc3.run (softplusV (fc2.run (softplusV (fc1.run x))))))))

/-- All-zero `Linear(inF, outF)` parameters, for concrete instances. -/
def zeroLinear (inF outF : Nat) : Linear :=
  ⟨List.replicate outF (List.replicate inF 0), List.replicate outF 0⟩

/-- Concrete `KimNet(bins=1, marks=1, nb_cls=5)` with all-zero parameters. -/
def exKim : KimNet :=
  ⟨1, 1, 5, zeroLinear 1 600, zeroLinear 600 500, zeroLinear 500 400,
   zeroLinear 400 5⟩

/-- All-zero `Conv1d(inCh, outCh, k, padding=p)` parameters. -/
def zeroConv (inCh outCh k p : Nat) : Conv1d :=
  ⟨List.replicate outCh (List.replicate inCh (List.replicate k 0)),
   List.replicate outCh 0, k, p⟩

/-- All-zero `BatchNorm1d(ch)` parameters (with unit eps). -/
def zeroBN (ch : Nat) : BatchNorm1d :=
  ⟨List.replicate ch 0, List.replicate ch 0, List.replicate ch 0,
   List.replicate ch 0, 1⟩

/-- Concrete `ConvNet(marks=1, nb_cls=2)` with all-zero parameters. -/
def exConv : ConvNet :=
  ⟨1, 2, false, zeroConv 1 32 7 3, zeroBN 32, zeroConv 32 32 3 1, zeroBN 32,
   zeroConv 32 64 3 1, zeroBN 64, zeroConv 64 64 3 1, zeroBN 64,
   zeroConv 64 2 1 0⟩

/-- A concrete single-sample (1 x 1 x 4) all-zero input for `exConv`. -/
def exIn1 : List (List (List ℝ)) := [[[0, 0, 0, 0]]]

/-- A concrete two-sample (2 x 1 x 4) all-zero input for `exConv`. -/
def exIn2 : List (List (List ℝ)) := [[[0, 0, 0, 0]], [[0, 0, 0, 0]]]

/-- `v` is a probability vector of length `n`: positive entries summing
to 1. -/
def probVec (n : Nat) (v : List ℝ) : Prop :=
  v.length = n ∧ (∀ x ∈ v, 0 < x) ∧ v.sum = 1

/-- One sample of a (channels x length) signal: `ch` channels, each of
length `L`. -/
def sampleWf (ch L : Nat) (s : List (List ℝ)) : Prop :=
  s.length = ch ∧ ∀ c ∈ s, c.length = L

/-- One sample of a (channels x 1) class-score distribution: `n` singleton
channels with positive values that sum to 1 across channels. -/
def probSample (n : Nat) (s : List (List ℝ)) : Prop :=
  sampleWf n 1 s ∧ (∀ ch ∈ s, ∀ v ∈ ch, 0 < v) ∧
  (s.map (fun ch => ch.getD 0 0)).sum = 1

/-! ### Helper lemmas: softmax and probability vectors -/

theorem expSum_pos (x : List ℝ) (hx : x ≠ []) : 0 < (x.map Real.exp).sum := by
  refine List.sum_pos _ ?_ ?_
  · intro y hy
    obtain ⟨t, _, rfl⟩ := List.mem_map.mp hy
    exact Real.exp_pos t
  · simpa using hx

theorem softmaxV_length (x : List ℝ) : (softmaxV x).length = x.length :=
  List.length_map _ _

theorem softmaxV_pos (x : List ℝ) (hx : x ≠ []) :
    ∀ y ∈ softmaxV x, 0 < y := by
  intro y hy
  obtain ⟨t, _, rfl⟩ := List.mem_map.mp hy
  exact div_pos (Real.exp_pos t) (expSum_pos x hx)

theorem sum_map_div_const (l : List ℝ) (c : ℝ) :
    (l.map (fun t => t / c)).sum = l.sum / c := by
  induction l with
  | nil => simp
  | cons a l ih => simp [ih, add_div]

theorem softmaxV_sum (x : List ℝ) (hx : x ≠ []) : (softmaxV x).sum = 1 := by
  have h : softmaxV x = (x.map Real.exp).map (fun t => t / (x.map Real.exp).sum) := by
    simp [softmaxV, List.map_map, Function.comp]
  rw [h, sum_map_div_const]
  exact div_self (ne_of_gt (expSum_pos x hx))

theorem probVec_softmaxV (n : Nat) (x : List ℝ) (hn : 0 < n)
    (hx : x.length = n) : probVec n (softmaxV x) := by
  have hne : x ≠ [] := by
    intro h
    rw [h] at hx
    simp at hx
    omega
  exact ⟨by rw [softmaxV_length, hx], softmaxV_pos x hne, softmaxV_sum x hne⟩

theorem probVec_map_log_exp (n : Nat) (v : List ℝ) (h : probVec n v) :
    (v.map Real.log).length = n ∧ ((v.map Real.log).map Real.exp).sum = 1 := by
  obtain ⟨hlen, hpos, hsum⟩ := h
  have hmm : (v.map Real.log).map Real.exp = v := by
    rw [List.map_map]
    have : v.map (Real.exp ∘ Real.log) = v.map id :=
      List.map_congr_left (fun a ha => Real.exp_log (hpos a ha))
    rw [this, List.map_id]
  constructor
  · rw [List.length_map, hlen]
  · rw [hmm, hsum]

theorem sum_zipWith_add (u v : List ℝ) (h : u.length = v.length) :
    (List.zipWith (fun a b => a + b) u v).sum = u.sum + v.sum := by
  induction u generalizing v with
  | nil =>
    cases v with
    | nil => simp
    | cons b v => simp at h
  | cons a u ih =>
    cases v with
    | nil => simp at h
    | cons b v =>
      simp only [List.zipWith_cons_cons, List.sum_cons]
      rw [ih v (by simpa using h)]
      ring

theorem probVec_avg (n : Nat) (u v : List ℝ) (hu : probVec n u)
    (hv : probVec n v) :
    probVec n ((List.zipWith (fun a b => a + b) u v).map (fun t => t / 2)) := by
  obtain ⟨hul, hup, hus⟩ := hu
  obtain ⟨hvl, hvp, hvs⟩ := hv
  refine ⟨?_, ?_, ?_⟩
  · simp [hul, hvl]
  · intro y hy
    obtain ⟨t, ht, rfl⟩ := List.mem_map.mp hy
    obtain ⟨i, hi, rfl⟩ := List.mem_iff_getElem.mp ht
    have hiu : i < u.length := by
      simpa [hul, hvl] using hi
    have hiv : i < v.length := by
      simpa [hul, hvl] using hi
    rw [List.getElem_zipWith]
    have h1 := hup (u.get ⟨i, hiu⟩) (List.getElem_mem _)
    have h2 := hvp (v.get ⟨i, hiv⟩) (List.getElem_mem _)
    simp only [List.get_eq_getElem] at h1 h2
    positivity
  · rw [sum_map_div_const, sum_zipWith_add u v (by rw [hul, hvl]), hus, hvs]
    norm_num

/-! ### Helper lemmas: view and chunking -/

theorem view2_some (k : Nat) (xs : List ℝ) (hk : 0 < k) (hd : k ∣ xs.length) :
    view2 k xs = some (chunkRows k xs) := by
  simp [view2, hk, hd]

theorem chunkRows_length (k : Nat) (xs : List ℝ) :
    (chunkRows k xs).length = xs.length / k := by
  simp [chunkRows]

/-! ### Helper lemmas: the MLP pipeline -/

theorem Linear.run_length (l : Linear) (x : List ℝ) :
    (l.run x).length = min l.weight.length l.bias.length := by
  simp [Linear.run]

theorem KimNet.model_prob (net : KimNet) (hwf : net.wf)
    (hcls : 0 < net.nb_cls) (training : Bool) (mask : Nat → Bool)
    (x : List ℝ) : probVec net.nb_cls (net.model training mask x) := by
  obtain ⟨-, -, -, hw4, -, hb4⟩ :
      net.fc1.wf (net.bins * net.marks) 600 ∧ net.fc2.wf 600 500 ∧
      net.fc3.wf 500 400 ∧ net.fc4.weight.length = net.nb_cls ∧
      (∀ r ∈ net.fc4.weight, r.length = 400) ∧
      net.fc4.bias.length = net.nb_cls := hwf
  refine probVec_softmaxV net.nb_cls _ hcls ?_
  rw [Linear.run_length, hw4, hb4, min_self]

theorem matLog_rows (n : Nat) (X : List (List ℝ))
    (hX : ∀ r ∈ X, probVec n r) :
    (matLog X).length = X.length ∧
    ∀ row ∈ matLog X, row.length = n ∧ (row.map Real.exp).sum = 1 := by
  refine ⟨List.length_map _ _, ?_⟩
  intro row hrow
  obtain ⟨r, hr, rfl⟩ := List.mem_map.mp hrow
  exact probVec_map_log_exp n r (hX r hr)

theorem mapIdx_model_prob (net : KimNet) (hwf : net.wf)
    (hcls : 0 < net.nb_cls) (training : Bool) (mask : Nat → Nat → Bool)
    (rows : List (List ℝ)) :
    ∀ r ∈ rows.mapIdx (fun i x => net.model training (mask i) x),
      probVec net.nb_cls r := by
  intro r hr
  obtain ⟨i, hi, rfl⟩ := List.exists_of_mem_mapIdx hr
  exact net.model_prob hwf hcls training (mask i) _

/-- Claim C1: for every well-formed KimNet configuration with a positive
class count, `forward` on a batch of `b` samples (optionally with a
shape-matched reverse-strand input) succeeds and returns a `b x nb_cls`
matrix each of whose rows, after exponentiation, sums to 1. -/
theorem spec_C1 (net : KimNet) (training : Bool)
    (maskF maskR : Nat → Nat → Bool) (histone_forward : List ℝ)
    (histone_reverse : Option (List ℝ)) (b : Nat)
    (hwf : net.wf) (hcls : 0 < net.nb_cls) (hbm : 0 < net.bins * net.marks)
    (hlen : histone_forward.length = b * (net.bins * net.marks))
    (hrev : histone_reverse = none ∨
      ∃ r, histone_reverse = some r ∧ r.length = histone_forward.length) :
    ∃ M, net.forward training maskF maskR histone_forward histone_reverse
        = some M ∧ M.length = b ∧
      ∀ row ∈ M, row.length = net.nb_cls ∧ (row.map Real.exp).sum = 1 := by
  have hdvd : (net.bins * net.marks) ∣ histone_forward.length :=
    ⟨b, by rw [hlen, Nat.mul_comm]⟩
  have hview := view2_some (net.bins * net.marks) histone_forward hbm hdvd
  have hrows : (chunkRows (net.bins * net.marks) histone_forward).length = b := by
    rw [chunkRows_length, hlen, Nat.mul_div_cancel b hbm]
  rcases hrev with hnone | ⟨r, hsome, hrlen⟩
  · subst hnone
    rw [KimNet.forward, hview]
    refine ⟨_, rfl, ?_, ?_⟩
    · simp [matLog, hrows]
    · exact (matLog_rows net.nb_cls _
        (mapIdx_model_prob net hwf hcls training maskF _)).2
  · subst hsome
    have hdvd2 : (net.bins * net.marks) ∣ r.length := by
      rw [hrlen]
      exact hdvd
    have hview2 := view2_some (net.bins * net.marks) r hbm hdvd2
    have hrows2 : (chunkRows (net.bins * net.marks) r).length = b := by
      rw [chunkRows_length, hrlen, hlen, Nat.mul_div_cancel b hbm]
    simp only [KimNet.forward, hview, hview2]
    set o := (chunkRows (net.bins * net.marks) histone_forward).mapIdx
      (fun i x => net.model training (maskF i) x) with ho
    set o2 := (chunkRows (net.bins * net.marks) r).mapIdx
      (fun i x => net.model training (maskR i) x) with ho2
    have holen : o.length = b := by
      rw [ho, List.length_mapIdx, hrows]
    have ho2len : o2.length = b := by
      rw [ho2, List.length_mapIdx, hrows2]
    have havg : ∀ row ∈ matHalf (matAdd o o2), probVec net.nb_cls row := by
      intro row hrow
      obtain ⟨s, hs, rfl⟩ := List.mem_map.mp hrow
      obtain ⟨i, hi, rfl⟩ := List.mem_iff_getElem.mp hs
      have hio : i < o.length := by
        have := hi
        simp only [matAdd, List.length_zipWith] at this
        omega
      have hio2 : i < o2.length := by
        have := hi
        simp only [matAdd, List.length_zipWith] at this
        omega
      simp only [matAdd]
      rw [List.getElem_zipWith]
      exact probVec_avg net.nb_cls _ _
        (mapIdx_model_prob net hwf hcls training maskF _ _ (List.getElem_mem hio))
        (mapIdx_model_prob net hwf hcls training maskR _ _ (List.getElem_mem hio2))
    refine ⟨_, rfl, ?_, (matLog_rows net.nb_cls _ havg).2⟩
    simp [matLog, matHalf, matAdd, holen, ho2len]

/-- Claim C10: `KimNet.forward` accepts any flat forward input whose element
count is a multiple of `bins*marks`, silently reinterpreting it as a batch
of `count / (bins*marks)` rows; no shape error occurs for such inputs. -/
theorem spec_C10 (net : KimNet) (training : Bool)
    (maskF maskR : Nat → Nat → Bool) (histone_forward : List ℝ)
    (hbm : 0 < net.bins * net.marks)
    (hdvd : (net.bins * net.marks) ∣ histone_forward.length) :
    ∃ M, net.forward training maskF maskR histone_forward none = some M ∧
      M.length = histone_forward.length / (net.bins * net.marks) := by
  rw [KimNet.forward, view2_some (net.bins * net.marks) histone_forward hbm hdvd]
  refine ⟨_, rfl, ?_⟩
  simp [matLog, chunkRows_length]

/-! ### Helper lemmas: averaging a batch with itself is the identity -/

theorem rowAvg_self (r : List ℝ) :
    (List.zipWith (fun u v => u + v) r r).map (fun v => v / 2) = r := by
  rw [List.zipWith_same, List.map_map]
  have h : ∀ v ∈ r, ((fun v : ℝ => v / 2) ∘ fun a : ℝ => a + a) v = id v :=
    fun v _ => add_self_div_two v
  rw [List.map_congr_left h, List.map_id]

theorem matAvg_self (o : List (List ℝ)) : matHalf (matAdd o o) = o := by
  simp only [matHalf, matAdd]
  rw [List.zipWith_same, List.map_map]
  have h : ∀ r ∈ o, ((fun r : List ℝ => r.map fun v => v / 2) ∘
      fun a : List ℝ => List.zipWith (fun u v => u + v) a a) r = id r :=
    fun r _ => rowAvg_self r
  rw [List.map_congr_left h, List.map_id]

theorem sampleAvg_self (s : List (List ℝ)) :
    (List.zipWith (List.zipWith fun u v => u + v) s s).map
      (fun ch => ch.map fun v => v / 2) = s := by
  rw [List.zipWith_same, List.map_map]
  have h : ∀ ch ∈ s, ((fun ch : List ℝ => ch.map fun v => v / 2) ∘
      fun a : List ℝ => List.zipWith (fun u v => u + v) a a) ch = id ch :=
    fun ch _ => rowAvg_self ch
  rw [List.map_congr_left h, List.map_id]

theorem batAvg_self (o : List (List (List ℝ))) : batHalf (batAdd o o) = o := by
  simp only [batHalf, batAdd]
  rw [List.zipWith_same, List.map_map]
  have h : ∀ s ∈ o, ((fun s : List (List ℝ) => s.map fun ch => ch.map fun v => v / 2) ∘
      fun a : List (List ℝ) => List.zipWith (List.zipWith fun u v => u + v) a a) s
      = id s :=
    fun s _ => sampleAvg_self s
  rw [List.map_congr_left h, List.map_id]

/-- In evaluation mode the dropout mask is irrelevant to the MLP pipeline. -/
theorem KimNet.model_eval_mask (net : KimNet) (m m' : Nat → Bool)
    (x : List ℝ) : net.model false m x = net.model false m' x := by
  simp [KimNet.model, dropout]

/-- Claim C4: for both classifiers in evaluation mode, calling the forward
pass with a reverse-strand input that is identical to the forward-strand
input returns exactly the output of the single-strand call, because
averaging two identical distributions is a no-op. -/
theorem spec_C4 :
    (∀ (net : KimNet) (maskF maskR : Nat → Nat → Bool) (x : List ℝ),
      net.forward false maskF maskR x (some x) =
        net.forward false maskF maskR x none) ∧
    (∀ (net : ConvNet) (x : List (List (List ℝ))),
      net.forward x (some x) = net.forward x none) := by
  constructor
  · intro net maskF maskR x
    rw [KimNet.forward, KimNet.forward]
    cases hv : view2 (net.bins * net.marks) x with
    | none => rfl
    | some rows =>
      simp only [hv]
      have hmask : (rows.mapIdx fun i r => net.model false (maskR i) r)
          = rows.mapIdx fun i r => net.model false (maskF i) r := by
        have : (fun i r => net.model false (maskR i) r)
            = fun i (r : List ℝ) => net.model false (maskF i) r := by
          funext i r
          exact net.model_eval_mask (maskR i) (maskF i) r
        rw [this]
      rw [hmask, matAvg_self]
  · intro net x
    rw [ConvNet.forward, ConvNet.forward]
    simp only [batAvg_self]

/-- Claim C5: for both classifiers, the dual-strand forward pass is the
spec's shared-weight dual-pass scheme instantiated with one single parameter
set: it equals the two-parameter-set formulation `forwardMixed` applied
diagonally, i.e. the identical pipeline (same weights) is run on both
strands and the two distributions are averaged before the logarithm. -/
theorem spec_C5 :
    (∀ (net : KimNet) (training : Bool) (maskF maskR : Nat → Nat → Bool)
        (hf hr : List ℝ),
      net.forward training maskF maskR hf (some hr) =
        KimNet.forwardMixed net net training maskF maskR hf hr) ∧
    (∀ (net : ConvNet) (hf hr : List (List (List ℝ))),
      net.forward hf (some hr) = ConvNet.forwardMixed net net hf hr) := by
  exact ⟨fun net training maskF maskR hf hr => rfl, fun net hf hr => rfl⟩

/-! ### Concrete instances are well formed -/

theorem zeroLinear_wf (inF outF : Nat) : (zeroLinear inF outF).wf inF outF := by
  refine ⟨by simp [zeroLinear], ?_, by simp [zeroLinear]⟩
  intro r hr
  simp only [zeroLinear] at hr
  rw [List.eq_of_mem_replicate hr]
  simp

theorem exKim_wf : exKim.wf :=
  ⟨zeroLinear_wf 1 600, zeroLinear_wf 600 500, zeroLinear_wf 500 400,
   zeroLinear_wf 400 5⟩

/-! ### Claims about construction, the pipeline shape, and initialization -/

/-- Claim C3: constructing the ConvNet with `nb_cls <= 1` fails immediately
with the precondition-violation message, and with any `nb_cls >= 2` it
succeeds, whatever the other arguments are: the assert is the only
construction-time precondition. -/
theorem spec_C3 (marks nb_cls : Nat) (flag : Bool) (c1 : Conv1d)
    (b1 : BatchNorm1d) (c2 : Conv1d) (b2 : BatchNorm1d) (c3 : Conv1d)
    (b3 : BatchNorm1d) (c4 : Conv1d) (b4 : BatchNorm1d) (c5 : Conv1d) :
    (nb_cls ≤ 1 → ConvNet.make marks nb_cls flag c1 b1 c2 b2 c3 b3 c4 b4 c5 =
      .error "output layer size must be at least 2.") ∧
    (1 < nb_cls → ConvNet.make marks nb_cls flag c1 b1 c2 b2 c3 b3 c4 b4 c5 =
      .ok ⟨marks, nb_cls, flag, c1, b1, c2, b2, c3, b3, c4, b4, c5⟩) := by
  constructor
  · intro h
    simp only [ConvNet.make]
    rw [if_neg (by omega)]
  · intro h
    simp only [ConvNet.make]
    rw [if_pos h]

theorem spec_C3_witness :
    ConvNet.make 1 1 false (zeroConv 1 32 7 3) (zeroBN 32) (zeroConv 32 32 3 1)
        (zeroBN 32) (zeroConv 32 64 3 1) (zeroBN 64) (zeroConv 64 64 3 1)
        (zeroBN 64) (zeroConv 64 1 1 0) =
      .error "output layer size must be at least 2." ∧
    ConvNet.make 1 2 false (zeroConv 1 32 7 3) (zeroBN 32) (zeroConv 32 32 3 1)
        (zeroBN 32) (zeroConv 32 64 3 1) (zeroBN 64) (zeroConv 64 64 3 1)
        (zeroBN 64) (zeroConv 64 2 1 0) =
      .ok ⟨1, 2, false, zeroConv 1 32 7 3, zeroBN 32, zeroConv 32 32 3 1,
        zeroBN 32, zeroConv 32 64 3 1, zeroBN 64, zeroConv 64 64 3 1,
        zeroBN 64, zeroConv 64 2 1 0⟩ :=
  ⟨(spec_C3 1 1 false (zeroConv 1 32 7 3) (zeroBN 32) (zeroConv 32 32 3 1)
      (zeroBN 32) (zeroConv 32 64 3 1) (zeroBN 64) (zeroConv 64 64 3 1)
      (zeroBN 64) (zeroConv 64 1 1 0)).1 (by norm_num),
   (spec_C3 1 2 false (zeroConv 1 32 7 3) (zeroBN 32) (zeroConv 32 32 3 1)
      (zeroBN 32) (zeroConv 32 64 3 1) (zeroBN 64) (zeroConv 64 64 3 1)
      (zeroBN 64) (zeroConv 64 2 1 0)).2 (by norm_num)⟩

/-- Claim C8: on any well-formed KimNet, the MLP pipeline is exactly the
spec's sequence — linear (bins*marks -> 600), softplus, linear (600 -> 500),
softplus, linear (500 -> 400), softplus, dropout of rate 0.5 that is inactive
in evaluation mode, linear (400 -> nb_cls), softmax — in this order and with
these widths. -/
theorem spec_C8 (net : KimNet) (hwf : net.wf) :
    (∀ (training : Bool) (mask : Nat → Bool) (x : List ℝ),
      net.model training mask x =
        specMLPpipeline net.fc1 net.fc2 net.fc3 net.fc4 training mask x) ∧
    net.fc1.weight.length = 600 ∧
    (∀ r ∈ net.fc1.weight, r.length = net.bins * net.marks) ∧
    (∀ x, (net.fc1.run x).length = 600) ∧
    (∀ x, (net.fc2.run x).length = 500) ∧
    (∀ x, (net.fc3.run x).length = 400) ∧
    (∀ x, (net.fc4.run x).length = net.nb_cls) ∧
    (∀ (mask : Nat → Bool) (x : List ℝ), dropout (1/2) false mask x = x) ∧
    (∀ x, (softmaxV x).length = x.length) := by
  obtain ⟨⟨h1w, h1r, h1b⟩, ⟨h2w, h2r, h2b⟩, ⟨h3w, h3r, h3b⟩, ⟨h4w, h4r, h4b⟩⟩ := hwf
  refine ⟨fun training mask x => rfl, h1w, h1r, ?_, ?_, ?_, ?_,
    fun mask x => rfl, softmaxV_length⟩
  · intro x
    rw [Linear.run_length, h1w, h1b, min_self]
  · intro x
    rw [Linear.run_length, h2w, h2b, min_self]
  · intro x
    rw [Linear.run_length, h3w, h3b, min_self]
  · intro x
    rw [Linear.run_length, h4w, h4b, min_self]

theorem spec_C8_witness :
    exKim.model false (fun _ => true) [0] =
      specMLPpipeline exKim.fc1 exKim.fc2 exKim.fc3 exKim.fc4 false
        (fun _ => true) [0] ∧
    (exKim.fc4.run [0]).length = exKim.nb_cls :=
  ⟨(spec_C8 exKim exKim_wf).1 false (fun _ => true) [0],
   (spec_C8 exKim exKim_wf).2.2.2.2.2.2.1 [0]⟩

/-- Claim C6: the initializer visitor gives a convolutional layer
Kaiming-uniform weights (every entry within the rectifier-tuned bound
`sqrt(6/fanIn)` when the raw draws lie in `[-1,1]`) and an all-zero bias,
and gives a linear layer Kaiming-normal weights (every entry is the raw
normal draw scaled by `sqrt(2/fanIn)`) and an all-zero bias, preserving the
parameter shapes. -/
theorem spec_C6 (udraws : Nat → Nat → Nat → ℝ) (ndraws : Nat → Nat → ℝ)
    (wc : List (List (List ℝ))) (bc : List ℝ) (wl : List (List ℝ))
    (bl : List ℝ) (hu : ∀ o i j, |udraws o i j| ≤ 1) :
    (init_weights udraws ndraws (.conv1d wc bc) =
      .conv1d (kaimingUniform3 udraws wc) (zerosLike bc)) ∧
    ((zerosLike bc).length = bc.length ∧ ∀ v ∈ zerosLike bc, v = 0) ∧
    (∀ oc ∈ kaimingUniform3 udraws wc, ∀ ic ∈ oc, ∀ v ∈ ic,
      |v| ≤ Real.sqrt (6 / (convFanIn wc : ℝ))) ∧
    (init_weights udraws ndraws (.linear wl bl) =
      .linear (kaimingNormal2 ndraws wl) (zerosLike bl)) ∧
    ((zerosLike bl).length = bl.length ∧ ∀ v ∈ zerosLike bl, v = 0) ∧
    (∀ row ∈ kaimingNormal2 ndraws wl, ∀ v ∈ row,
      ∃ i j, v = Real.sqrt (2 / (linearFanIn wl : ℝ)) * ndraws i j) ∧
    (kaimingUniform3 udraws wc).length = wc.length ∧
    (kaimingNormal2 ndraws wl).length = wl.length := by
  refine ⟨rfl, ⟨List.length_map _ _, ?_⟩, ?_, rfl, ⟨List.length_map _ _, ?_⟩,
    ?_, List.length_mapIdx, List.length_mapIdx⟩
  · intro v hv
    obtain ⟨-, -, rfl⟩ := List.mem_map.mp hv
    rfl
  · intro oc hoc ic hic v hv
    obtain ⟨o, ho, rfl⟩ := List.exists_of_mem_mapIdx hoc
    obtain ⟨i, hi, rfl⟩ := List.exists_of_mem_mapIdx hic
    obtain ⟨j, hj, rfl⟩ := List.exists_of_mem_mapIdx hv
    rw [abs_mul, abs_of_nonneg (Real.sqrt_nonneg _)]
    calc Real.sqrt (6 / (convFanIn wc : ℝ)) * |udraws o i j|
        ≤ Real.sqrt (6 / (convFanIn wc : ℝ)) * 1 :=
          mul_le_mul_of_nonneg_left (hu o i j) (Real.sqrt_nonneg _)
      _ = Real.sqrt (6 / (convFanIn wc : ℝ)) := mul_one _
  · intro v hv
    obtain ⟨-, -, rfl⟩ := List.mem_map.mp hv
    rfl
  · intro row hrow v hv
    obtain ⟨i, hi, rfl⟩ := List.exists_of_mem_mapIdx hrow
    obtain ⟨j, hj, rfl⟩ := List.exists_of_mem_mapIdx hv
    exact ⟨i, j, rfl⟩

theorem spec_C6_witness :
    init_weights (fun _ _ _ => 1) (fun _ _ => 0) (.conv1d [[[5]]] [3]) =
      .conv1d (kaimingUniform3 (fun _ _ _ => 1) [[[5]]]) (zerosLike [3]) ∧
    ∀ oc ∈ kaimingUniform3 (fun _ _ _ => (1 : ℝ)) [[[5]]], ∀ ic ∈ oc,
      ∀ v ∈ ic, |v| ≤ Real.sqrt (6 / (convFanIn [[[(5 : ℝ)]]] : ℝ)) := by
  have H := spec_C6 (fun _ _ _ => 1) (fun _ _ => 0) [[[5]]] [3] [[4]] [2]
    (fun o i j => by norm_num)
  exact ⟨H.1, H.2.2.1⟩

/-- Claim C7: the initializer visitor leaves every layer that is neither
convolutional nor linear (normalization, pooling, activation, regularizer,
softmax) exactly unchanged, parameters included; the in-place, valueless
mutation of the Python code is modelled by returning the (unchanged)
layer. -/
theorem spec_C7 (udraws : Nat → Nat → Nat → ℝ) (ndraws : Nat → Nat → ℝ)
    (m : Layer) (hc : m.isConv1d = false) (hl : m.isLinear = false) :
    init_weights udraws ndraws m = m := by
  cases m with
  | conv1d w b => simp [Layer.isConv1d] at hc
  | linear w b => simp [Layer.isLinear] at hl
  | batchNorm1d g bb => rfl
  | softplus => rfl
  | relu => rfl
  | leakyRelu => rfl
  | dropoutLayer p => rfl
  | softmaxLayer d => rfl
  | maxPool1d k s => rfl
  | adaptiveAvgPool1d o => rfl

theorem spec_C7_witness :
    init_weights (fun _ _ _ => 0) (fun _ _ => 0)
        (Layer.batchNorm1d [1, 2] [3, 4]) = Layer.batchNorm1d [1, 2] [3, 4] :=
  spec_C7 (fun _ _ _ => 0) (fun _ _ => 0) (Layer.batchNorm1d [1, 2] [3, 4])
    rfl rfl

/-! ### Helper lemmas: shapes through the convolutional stages -/

theorem conv1d_run_shape (c : Conv1d) (inCh outCh k p : Nat)
    (hwf : c.wf inCh outCh k p) (s : List (List ℝ)) (L : Nat)
    (hs : sampleWf inCh L s) (hin : 0 < inCh) :
    sampleWf outCh (L + 2 * p + 1 - k) (c.run s) := by
  obtain ⟨hw, -, hb, hk, hp⟩ := hwf
  obtain ⟨hsl, hsc⟩ := hs
  have hL : (s.head?.getD []).length = L := by
    cases s with
    | nil =>
      rw [List.length_nil] at hsl
      omega
    | cons ch t => simpa using hsc ch (by simp)
  constructor
  · simp [Conv1d.run, hw, hb]
  · intro ch hch
    simp only [Conv1d.run] at hch
    obtain ⟨i, hi, rfl⟩ := List.mem_iff_getElem.mp hch
    rw [List.getElem_zipWith, List.length_map, List.length_range, hL, hk, hp]

theorem batchNorm1d_run_shape (bn : BatchNorm1d) (s : List (List ℝ))
    (ch L : Nat) (hs : sampleWf ch L s) : sampleWf ch L (bn.run s) := by
  obtain ⟨hl, hc⟩ := hs
  constructor
  · simp [BatchNorm1d.run, hl]
  · intro r hr
    simp only [BatchNorm1d.run] at hr
    obtain ⟨i, hi, rfl⟩ := List.exists_of_mem_mapIdx hr
    rw [List.length_map]
    exact hc _ (List.getElem_mem hi)

theorem applyAct_shape (leaky : Bool) (s : List (List ℝ)) (ch L : Nat)
    (hs : sampleWf ch L s) : sampleWf ch L (applyAct leaky s) := by
  obtain ⟨hl, hc⟩ := hs
  constructor
  · simp [applyAct, hl]
  · intro r hr
    simp only [applyAct] at hr
    obtain ⟨a, ha, rfl⟩ := List.mem_map.mp hr
    rw [List.length_map]
    exact hc a ha

theorem maxPool2_shape (s : List (List ℝ)) (ch L : Nat)
    (hs : sampleWf ch L s) : sampleWf ch (L / 2) (maxPool2 s) := by
  obtain ⟨hl, hc⟩ := hs
  constructor
  · simp [maxPool2, hl]
  · intro r hr
    simp only [maxPool2] at hr
    obtain ⟨a, ha, rfl⟩ := List.mem_map.mp hr
    rw [List.length_map, List.length_range, hc a ha]

theorem adaptiveAvgPool1_shape (s : List (List ℝ)) (ch L : Nat)
    (hs : sampleWf ch L s) : sampleWf ch 1 (adaptiveAvgPool1 s) := by
  obtain ⟨hl, hc⟩ := hs
  constructor
  · simp [adaptiveAvgPool1, hl]
  · intro r hr
    simp only [adaptiveAvgPool1] at hr
    obtain ⟨a, ha, rfl⟩ := List.mem_map.mp hr
    rfl

theorem softmaxChannels_shape (s : List (List ℝ)) (ch L : Nat)
    (hs : sampleWf ch L s) : sampleWf ch L (softmaxChannels s) := by
  obtain ⟨hl, hc⟩ := hs
  constructor
  · simp [softmaxChannels, hl]
  · intro r hr
    simp only [softmaxChannels] at hr
    obtain ⟨a, ha, rfl⟩ := List.mem_map.mp hr
    rw [List.length_mapIdx]
    exact hc a ha

theorem ConvNet.forward_prop_shape (net : ConvNet) (hwf : net.wf)
    (s : List (List ℝ)) (L : Nat) (hs : sampleWf net.marks L s)
    (hm : 0 < net.marks) : sampleWf net.nb_cls 1 (net.forward_prop s) := by
  obtain ⟨hc1, hb1, hc2, hb2, hc3, hb3, hc4, hb4, hc5⟩ := hwf
  have h1 : sampleWf 32 L (net.layer_one s) := by
    have := conv1d_run_shape net.conv1 net.marks 32 7 3 hc1 s L hs hm
    have heq : L + 2 * 3 + 1 - 7 = L := by omega
    rw [heq] at this
    exact applyAct_shape _ _ _ _ (batchNorm1d_run_shape net.bn1 _ _ _ this)
  have h2 : sampleWf 32 (L / 2) (net.layer_two (net.layer_one s)) := by
    have := conv1d_run_shape net.conv2 32 32 3 1 hc2 _ L h1 (by norm_num)
    have heq : L + 2 * 1 + 1 - 3 = L := by omega
    rw [heq] at this
    exact maxPool2_shape _ _ _ (applyAct_shape _ _ _ _ (batchNorm1d_run_shape net.bn2 _ _ _ this))
  have h3 : sampleWf 64 (L / 2) (net.layer_three (net.layer_two (net.layer_one s))) := by
    have := conv1d_run_shape net.conv3 32 64 3 1 hc3 _ (L / 2) h2 (by norm_num)
    have heq : L / 2 + 2 * 1 + 1 - 3 = L / 2 := by omega
    rw [heq] at this
    exact applyAct_shape _ _ _ _ (batchNorm1d_run_shape net.bn3 _ _ _ this)
  have h4 : sampleWf 64 (L / 2 / 2)
      (net.layer_four (net.layer_three (net.layer_two (net.layer_one s)))) := by
    have := conv1d_run_shape net.conv4 64 64 3 1 hc4 _ (L / 2) h3 (by norm_num)
    have heq : L / 2 + 2 * 1 + 1 - 3 = L / 2 := by omega
    rw [heq] at this
    exact maxPool2_shape _ _ _ (applyAct_shape _ _ _ _ (batchNorm1d_run_shape net.bn4 _ _ _ this))
  have h5 : sampleWf 64 1 (adaptiveAvgPool1
      (net.layer_four (net.layer_three (net.layer_two (net.layer_one s))))) :=
    adaptiveAvgPool1_shape _ _ _ h4
  have h6 : sampleWf net.nb_cls 1 (net.conv5.run (adaptiveAvgPool1
      (net.layer_four (net.layer_three (net.layer_two (net.layer_one s)))))) := by
    have := conv1d_run_shape net.conv5 64 net.nb_cls 1 0 hc5 _ 1 h5 (by norm_num)
    have heq : 1 + 2 * 0 + 1 - 1 = 1 := by omega
    rw [heq] at this
    exact this
  exact softmaxChannels_shape _ _ _ h6

/-! ### Helper lemmas: the class-score distribution of the ConvNet head -/

theorem singleton_channels (s : List (List ℝ)) (n : Nat)
    (hs : sampleWf n 1 s) : ∀ ch ∈ s, ch = [ch.getD 0 0] := by
  intro ch hch
  obtain ⟨v, hv⟩ := List.length_eq_one.mp (hs.2 ch hch)
  rw [hv]
  rfl

theorem colExpSum_zero (s : List (List ℝ)) :
    colExpSum s 0 = (s.map (fun ch => Real.exp (ch.getD 0 0))).sum := rfl

theorem colExpSum_zero_pos (s : List (List ℝ)) (hne : s ≠ []) :
    0 < colExpSum s 0 := by
  rw [colExpSum_zero]
  refine List.sum_pos _ ?_ ?_
  · intro y hy
    obtain ⟨ch, -, rfl⟩ := List.mem_map.mp hy
    exact Real.exp_pos _
  · simpa using hne

theorem softmaxChannels_prob (s : List (List ℝ)) (n : Nat) (hn : 0 < n)
    (hs : sampleWf n 1 s) : probSample n (softmaxChannels s) := by
  have hne : s ≠ [] := by
    intro h
    rw [h] at hs
    have := hs.1
    simp at this
    omega
  have hS := colExpSum_zero_pos s hne
  refine ⟨softmaxChannels_shape s n 1 hs, ?_, ?_⟩
  · intro ch hch v hv
    simp only [softmaxChannels] at hch
    obtain ⟨a, ha, rfl⟩ := List.mem_map.mp hch
    obtain ⟨t, ht, rfl⟩ := List.exists_of_mem_mapIdx hv
    have h1 : a = [a.getD 0 0] := singleton_channels s n hs a ha
    have ht1 : t = 0 := by
      have := hs.2 a ha
      omega
    subst ht1
    exact div_pos (Real.exp_pos _) hS
  · have hmap : (softmaxChannels s).map (fun ch => ch.getD 0 0) =
        s.map (fun ch => Real.exp (ch.getD 0 0) / colExpSum s 0) := by
      simp only [softmaxChannels, List.map_map]
      refine List.map_congr_left ?_
      intro ch hch
      have h1 : ch = [ch.getD 0 0] := singleton_channels s n hs ch hch
      conv_lhs => rw [h1]
      rfl
    rw [hmap]
    have hdiv : s.map (fun ch => Real.exp (ch.getD 0 0) / colExpSum s 0) =
        (s.map (fun ch => Real.exp (ch.getD 0 0))).map
          (fun t => t / colExpSum s 0) := by
      rw [List.map_map]
      rfl
    rw [hdiv, sum_map_div_const, ← colExpSum_zero]
    exact div_self (ne_of_gt hS)

theorem ConvNet.forward_prop_prob (net : ConvNet) (hwf : net.wf)
    (s : List (List ℝ)) (L : Nat) (hs : sampleWf net.marks L s)
    (hm : 0 < net.marks) (hc : 0 < net.nb_cls) :
    probSample net.nb_cls (net.forward_prop s) := by
  obtain ⟨hc1, hb1, hc2, hb2, hc3, hb3, hc4, hb4, hc5⟩ := hwf
  have h4 : sampleWf 64 (L / 2 / 2)
      (net.layer_four (net.layer_three (net.layer_two (net.layer_one s)))) := by
    have hsh := ConvNet.forward_prop_shape net
      ⟨hc1, hb1, hc2, hb2, hc3, hb3, hc4, hb4, hc5⟩ s L hs hm
    -- rebuild the intermediate shape: repeat the stage chain
    have h1 : sampleWf 32 L (net.layer_one s) := by
      have := conv1d_run_shape net.conv1 net.marks 32 7 3 hc1 s L hs hm
      have heq : L + 2 * 3 + 1 - 7 = L := by omega
      rw [heq] at this
      exact applyAct_shape _ _ _ _ (batchNorm1d_run_shape net.bn1 _ _ _ this)
    have h2 : sampleWf 32 (L / 2) (net.layer_two (net.layer_one s)) := by
      have := conv1d_run_shape net.conv2 32 32 3 1 hc2 _ L h1 (by norm_num)
      have heq : L + 2 * 1 + 1 - 3 = L := by omega
      rw [heq] at this
      exact maxPool2_shape _ _ _ (applyAct_shape _ _ _ _ (batchNorm1d_run_shape net.bn2 _ _ _ this))
    have h3 : sampleWf 64 (L / 2)
        (net.layer_three (net.layer_two (net.layer_one s))) := by
      have := conv1d_run_shape net.conv3 32 64 3 1 hc3 _ (L / 2) h2 (by norm_num)
      have heq : L / 2 + 2 * 1 + 1 - 3 = L / 2 := by omega
      rw [heq] at this
      exact applyAct_shape _ _ _ _ (batchNorm1d_run_shape net.bn3 _ _ _ this)
    have := conv1d_run_shape net.conv4 64 64 3 1 hc4 _ (L / 2) h3 (by norm_num)
    have heq : L / 2 + 2 * 1 + 1 - 3 = L / 2 := by omega
    rw [heq] at this
    exact maxPool2_shape _ _ _ (applyAct_shape _ _ _ _ (batchNorm1d_run_shape net.bn4 _ _ _ this))
  have h5 : sampleWf 64 1 (adaptiveAvgPool1
      (net.layer_four (net.layer_three (net.layer_two (net.layer_one s))))) :=
    adaptiveAvgPool1_shape _ _ _ h4
  have h6 : sampleWf net.nb_cls 1 (net.conv5.run (adaptiveAvgPool1
      (net.layer_four (net.layer_three (net.layer_two (net.layer_one s)))))) := by
    have := conv1d_run_shape net.conv5 64 net.nb_cls 1 0 hc5 _ 1 h5 (by norm_num)
    have heq : 1 + 2 * 0 + 1 - 1 = 1 := by omega
    rw [heq] at this
    exact this
  exact softmaxChannels_prob _ net.nb_cls hc h6

/-! ### Helper lemmas: flattening and re-chunking the output tensor -/

theorem flatten_map_singleton {α β : Type} (l : List α) (f : α → β) :
    (l.map (fun a => [f a])).flatten = l.map f := by
  induction l with
  | nil => rfl
  | cons a t ih => simp [ih]

theorem probSample_log_row (n : Nat) (s : List (List ℝ)) (h : probSample n s) :
    (s.map (fun ch => ch.map Real.log)).flatten.length = n ∧
    ((s.map (fun ch => ch.map Real.log)).flatten.map Real.exp).sum = 1 := by
  obtain ⟨hsw, hpos, hsum⟩ := h
  have hchar : ∀ ch ∈ s, ch = [ch.getD 0 0] := singleton_channels s n hsw
  have h1 : s.map (fun ch => ch.map Real.log) =
      s.map (fun ch => [Real.log (ch.getD 0 0)]) := by
    refine List.map_congr_left ?_
    intro ch hch
    conv_lhs => rw [hchar ch hch]
    rfl
  rw [h1, flatten_map_singleton]
  refine ⟨by rw [List.length_map, hsw.1], ?_⟩
  rw [List.map_map]
  have h2 : s.map (Real.exp ∘ fun ch => Real.log (ch.getD 0 0)) =
      s.map (fun ch => ch.getD 0 0) := by
    refine List.map_congr_left ?_
    intro ch hch
    have hmem : ch.getD 0 0 ∈ ch := by
      obtain ⟨v, hv⟩ := List.length_eq_one.mp (hsw.2 ch hch)
      rw [hv]
      simp
    exact Real.exp_log (hpos ch hch _ hmem)
  rw [h2, hsum]

theorem chunkRows_flatten (k : Nat) (hk : 0 < k) (rs : List (List ℝ))
    (hrs : ∀ r ∈ rs, r.length = k) : chunkRows k rs.flatten = rs := by
  induction rs with
  | nil => simp [chunkRows]
  | cons r rest ih =>
    have hr : r.length = k := hrs r (by simp)
    rw [List.flatten_cons]
    simp only [chunkRows]
    have hdiv : (r ++ rest.flatten).length / k = rest.flatten.length / k + 1 := by
      rw [List.length_append, hr, Nat.add_comm]
      exact Nat.add_div_right _ hk
    rw [hdiv, List.range_succ_eq_map, List.map_cons, List.map_map]
    have hhead : ((r ++ rest.flatten).drop (0 * k)).take k = r := by
      rw [Nat.zero_mul, List.drop_zero]
      exact List.take_left' hr
    have htail : (List.range (rest.flatten.length / k)).map
        ((fun i => ((r ++ rest.flatten).drop (i * k)).take k) ∘ Nat.succ) = rest := by
      have hcongr : ∀ i ∈ List.range (rest.flatten.length / k),
          ((fun i => ((r ++ rest.flatten).drop (i * k)).take k) ∘ Nat.succ) i =
          (rest.flatten.drop (i * k)).take k := by
        intro i hi
        have harith : Nat.succ i * k = k + i * k := by
          rw [Nat.succ_mul, Nat.add_comm]
        have hdd : (r ++ rest.flatten).drop (Nat.succ i * k) =
            rest.flatten.drop (i * k) := by
          rw [harith, ← List.drop_drop, List.drop_left' hr]
        simp only [Function.comp_apply, hdd]
      rw [List.map_congr_left hcongr]
      have ihc := ih (fun a ha => hrs a (by simp [ha]))
      simpa [chunkRows] using ihc
    rw [hhead, htail]

theorem shape3_of_wf (X : List (List (List ℝ))) (n : Nat)
    (hX : ∀ s ∈ X, sampleWf n 1 s) (hne : 0 < X.length) (hn : 0 < n) :
    shape3 X = [X.length, n, 1] := by
  cases X with
  | nil => simp at hne
  | cons s t =>
    have hs := hX s (by simp)
    cases hsc : s with
    | nil =>
      rw [hsc] at hs
      have := hs.1
      simp at this
      omega
    | cons ch cht =>
      have hch : ch.length = 1 := by
        refine hs.2 ch ?_
        rw [hsc]
        simp
      have h2 : s.length = n := hs.1
      rw [hsc] at h2
      simp [shape3, hsc, hch, h2]

/-! ### Helper lemmas: averaging two class-score samples -/

theorem avg_col_sum : ∀ (s1 s2 : List (List ℝ)),
    (∀ ch ∈ s1, ch.length = 1) → (∀ ch ∈ s2, ch.length = 1) →
    s1.length = s2.length →
    (((List.zipWith (List.zipWith fun u v => u + v) s1 s2).map
        (fun ch => ch.map fun v => v / 2)).map (fun ch => ch.getD 0 0)).sum =
      ((s1.map (fun ch => ch.getD 0 0)).sum +
        (s2.map (fun ch => ch.getD 0 0)).sum) / 2
  | [], [], _, _, _ => by simp
  | [], b :: t, _, _, h => by simp at h
  | a :: t, [], _, _, h => by simp at h
  | a :: t1, b :: t2, h1, h2, hlen => by
    obtain ⟨va, hva⟩ := List.length_eq_one.mp (h1 a (by simp))
    obtain ⟨vb, hvb⟩ := List.length_eq_one.mp (h2 b (by simp))
    subst hva
    subst hvb
    simp only [List.zipWith_cons_cons, List.map_cons, List.sum_cons]
    rw [avg_col_sum t1 t2 (fun ch hch => h1 ch (by simp [hch]))
      (fun ch hch => h2 ch (by simp [hch])) (by simpa using hlen)]
    simp only [List.zipWith_cons_cons, List.zipWith_nil_left, List.map_cons,
      List.getD_cons_zero]
    ring

theorem probSample_avg (n : Nat) (s1 s2 : List (List ℝ))
    (h1 : probSample n s1) (h2 : probSample n s2) :
    probSample n ((List.zipWith (List.zipWith fun u v => u + v) s1 s2).map
      (fun ch => ch.map fun v => v / 2)) := by
  obtain ⟨⟨h1l, h1c⟩, h1p, h1s⟩ := h1
  obtain ⟨⟨h2l, h2c⟩, h2p, h2s⟩ := h2
  refine ⟨⟨by simp [h1l, h2l], ?_⟩, ?_, ?_⟩
  · intro ch hch
    obtain ⟨c0, hc0, rfl⟩ := List.mem_map.mp hch
    obtain ⟨i, hi, rfl⟩ := List.mem_iff_getElem.mp hc0
    have hi1 : i < s1.length := by
      rw [List.length_zipWith] at hi
      omega
    have hi2 : i < s2.length := by
      rw [List.length_zipWith] at hi
      omega
    rw [List.getElem_zipWith, List.length_map, List.length_zipWith]
    have e1 : (s1.get ⟨i, hi1⟩).length = 1 := h1c _ (List.getElem_mem hi1)
    have e2 : (s2.get ⟨i, hi2⟩).length = 1 := h2c _ (List.getElem_mem hi2)
    simp only [List.get_eq_getElem] at e1 e2
    rw [e1, e2]
    simp
  · intro ch hch v hv
    obtain ⟨c0, hc0, rfl⟩ := List.mem_map.mp hch
    obtain ⟨i, hi, rfl⟩ := List.mem_iff_getElem.mp hc0
    have hi1 : i < s1.length := by
      rw [List.length_zipWith] at hi
      omega
    have hi2 : i < s2.length := by
      rw [List.length_zipWith] at hi
      omega
    rw [List.getElem_zipWith] at hv
    obtain ⟨t, ht, rfl⟩ := List.mem_map.mp hv
    obtain ⟨j, hj, rfl⟩ := List.mem_iff_getElem.mp ht
    have hj1 : j < (s1.get ⟨i, hi1⟩).length := by
      rw [List.length_zipWith] at hj
      simp only [List.get_eq_getElem]
      omega
    have hj2 : j < (s2.get ⟨i, hi2⟩).length := by
      rw [List.length_zipWith] at hj
      simp only [List.get_eq_getElem]
      omega
    rw [List.getElem_zipWith]
    have p1 := h1p _ (List.getElem_mem hi1) _ (List.getElem_mem hj1)
    have p2 := h2p _ (List.getElem_mem hi2) _ (List.getElem_mem hj2)
    simp only [List.get_eq_getElem] at p1 p2
    positivity
  · rw [avg_col_sum s1 s2 h1c h2c (by rw [h1l, h2l]), h1s, h2s]
    norm_num

/-! ### Helper lemmas: facts about the full ConvNet forward output -/

theorem sampleWf_log (n : Nat) (s : List (List ℝ)) (hs : sampleWf n 1 s) :
    sampleWf n 1 (s.map (fun ch => ch.map Real.log)) := by
  refine ⟨by simp [hs.1], ?_⟩
  intro ch hch
  obtain ⟨a, ha, rfl⟩ := List.mem_map.mp hch
  rw [List.length_map]
  exact hs.2 a ha

theorem logBatch_facts (n : Nat) (oo : List (List (List ℝ))) (hn : 0 < n)
    (hb : 0 < oo.length) (hprob : ∀ s ∈ oo, probSample n s) :
    shape3 (batLog oo) = [oo.length, n, 1] ∧
    (chunkRows n (flatten3 (batLog oo))).length = oo.length ∧
    ∀ row ∈ chunkRows n (flatten3 (batLog oo)),
      row.length = n ∧ (row.map Real.exp).sum = 1 := by
  have hsw : ∀ s ∈ batLog oo, sampleWf n 1 s := by
    intro s hsmem
    simp only [batLog] at hsmem
    obtain ⟨a, ha, rfl⟩ := List.mem_map.mp hsmem
    exact sampleWf_log n a (hprob a ha).1
  have hlenb : (batLog oo).length = oo.length := by
    simp [batLog]
  have hshape : shape3 (batLog oo) = [(batLog oo).length, n, 1] :=
    shape3_of_wf _ n hsw (by rw [hlenb]; exact hb) hn
  have hchunk : chunkRows n (flatten3 (batLog oo)) =
      (batLog oo).map (fun s => s.flatten) := by
    refine chunkRows_flatten n hn _ ?_
    intro r hr
    obtain ⟨s, hsmem, rfl⟩ := List.mem_map.mp hr
    simp only [batLog] at hsmem
    obtain ⟨a, ha, rfl⟩ := List.mem_map.mp hsmem
    exact (probSample_log_row n a (hprob a ha)).1
  refine ⟨by rw [hshape, hlenb], by rw [hchunk, List.length_map, hlenb], ?_⟩
  intro row hrow
  rw [hchunk] at hrow
  obtain ⟨s, hsmem, rfl⟩ := List.mem_map.mp hrow
  simp only [batLog] at hsmem
  obtain ⟨a, ha, rfl⟩ := List.mem_map.mp hsmem
  exact probSample_log_row n a (hprob a ha)

theorem ConvNet.forward_facts (net : ConvNet) (hwf : net.wf) (L : Nat)
    (x : List (List (List ℝ)))
    (histone_reverse : Option (List (List (List ℝ))))
    (hm : 0 < net.marks) (hc : 0 < net.nb_cls) (hb : 0 < x.length)
    (hxs : ∀ s ∈ x, sampleWf net.marks L s)
    (hrev : histone_reverse = none ∨ ∃ y, histone_reverse = some y ∧
      y.length = x.length ∧ ∀ s ∈ y, sampleWf net.marks L s) :
    (net.forward x histone_reverse).shape =
      squeezeShape [x.length, net.nb_cls, 1] ∧
    (chunkRows net.nb_cls (net.forward x histone_reverse).data).length
      = x.length ∧
    ∀ row ∈ chunkRows net.nb_cls (net.forward x histone_reverse).data,
      row.length = net.nb_cls ∧ (row.map Real.exp).sum = 1 := by
  have hoprob : ∀ s ∈ x.map net.forward_prop, probSample net.nb_cls s := by
    intro s hsmem
    obtain ⟨a, ha, rfl⟩ := List.mem_map.mp hsmem
    exact net.forward_prop_prob hwf a L (hxs a ha) hm hc
  rcases hrev with rfl | ⟨y, rfl, hylen, hys⟩
  · have H := logBatch_facts net.nb_cls (x.map net.forward_prop) hc
      (by rw [List.length_map]; exact hb) hoprob
    refine ⟨?_, ?_, ?_⟩
    · show squeezeShape (shape3 (batLog (x.map net.forward_prop))) = _
      rw [H.1, List.length_map]
    · show (chunkRows net.nb_cls
        (flatten3 (batLog (x.map net.forward_prop)))).length = _
      rw [H.2.1, List.length_map]
    · intro row hrow
      exact H.2.2 row hrow
  · have ho2prob : ∀ s ∈ y.map net.forward_prop, probSample net.nb_cls s := by
      intro s hsmem
      obtain ⟨a, ha, rfl⟩ := List.mem_map.mp hsmem
      exact net.forward_prop_prob hwf a L (hys a ha) hm hc
    have hooprob : ∀ s ∈ batHalf (batAdd (x.map net.forward_prop)
        (y.map net.forward_prop)), probSample net.nb_cls s := by
      intro s hsmem
      simp only [batHalf, batAdd] at hsmem
      obtain ⟨c0, hc0, rfl⟩ := List.mem_map.mp hsmem
      obtain ⟨i, hi, rfl⟩ := List.mem_iff_getElem.mp hc0
      have hio : i < (x.map net.forward_prop).length := by
        rw [List.length_zipWith] at hi
        omega
      have hio2 : i < (y.map net.forward_prop).length := by
        rw [List.length_zipWith] at hi
        omega
      rw [List.getElem_zipWith]
      exact probSample_avg net.nb_cls _ _
        (hoprob _ (List.getElem_mem hio)) (ho2prob _ (List.getElem_mem hio2))
    have hoolen : (batHalf (batAdd (x.map net.forward_prop)
        (y.map net.forward_prop))).length = x.length := by
      simp [batHalf, batAdd, hylen]
    have H := logBatch_facts net.nb_cls (batHalf (batAdd (x.map net.forward_prop)
      (y.map net.forward_prop))) hc (by rw [hoolen]; exact hb) hooprob
    refine ⟨?_, ?_, ?_⟩
    · show squeezeShape (shape3 (batLog (batHalf (batAdd (x.map net.forward_prop)
        (y.map net.forward_prop))))) = _
      rw [H.1, hoolen]
    · show (chunkRows net.nb_cls (flatten3 (batLog (batHalf (batAdd
        (x.map net.forward_prop) (y.map net.forward_prop)))))).length = _
      rw [H.2.1, hoolen]
    · intro row hrow
      exact H.2.2 row hrow

theorem zeroConv_wf (inCh outCh k p : Nat) :
    (zeroConv inCh outCh k p).wf inCh outCh k p := by
  refine ⟨by simp [zeroConv], ?_, by simp [zeroConv], rfl, rfl⟩
  intro oc hoc
  simp only [zeroConv] at hoc
  rw [List.eq_of_mem_replicate hoc]
  refine ⟨by simp, ?_⟩
  intro ic hic
  rw [List.eq_of_mem_replicate hic]
  simp

theorem zeroBN_wf (ch : Nat) : (zeroBN ch).wf ch :=
  ⟨by simp [zeroBN], by simp [zeroBN], by simp [zeroBN], by simp [zeroBN]⟩

theorem exConv_wf : exConv.wf :=
  ⟨zeroConv_wf 1 32 7 3, zeroBN_wf 32, zeroConv_wf 32 32 3 1, zeroBN_wf 32,
   zeroConv_wf 32 64 3 1, zeroBN_wf 64, zeroConv_wf 64 64 3 1, zeroBN_wf 64,
   zeroConv_wf 64 2 1 0⟩

theorem exIn1_wf : ∀ s ∈ exIn1, sampleWf exConv.marks 4 s := by
  intro s hs
  simp only [exIn1, List.mem_singleton] at hs
  subst hs
  refine ⟨rfl, ?_⟩
  intro c hc
  simp only [List.mem_singleton] at hc
  subst hc
  rfl

theorem exIn2_wf : ∀ s ∈ exIn2, sampleWf exConv.marks 4 s := by
  intro s hs
  simp only [exIn2, List.mem_cons, List.mem_singleton] at hs
  rcases hs with rfl | rfl | h
  · exact ⟨rfl, by intro c hc; simp only [List.mem_singleton] at hc; subst hc; rfl⟩
  · exact ⟨rfl, by intro c hc; simp only [List.mem_singleton] at hc; subst hc; rfl⟩
  · cases h

/-! ### Claims about the ConvNet forward output shape -/

/-- Claim C9: for a single-sample batch, the ConvNet forward output is a
one-dimensional tensor of length nb_cls: `torch.squeeze` removes every
singleton dimension, including the batch dimension, not only the trailing
one. -/
theorem spec_C9 (net : ConvNet) (hwf : net.wf) (L : Nat)
    (x : List (List (List ℝ))) (hm : 0 < net.marks) (hc : 2 ≤ net.nb_cls)
    (hb : x.length = 1) (hxs : ∀ s ∈ x, sampleWf net.marks L s)
    (hL : 4 ≤ L) : (net.forward x none).shape = [net.nb_cls] := by
  have H := net.forward_facts hwf L x none hm (by omega) (by omega) hxs
    (Or.inl rfl)
  rw [H.1, hb]
  have hne : net.nb_cls ≠ 1 := by omega
  simp [squeezeShape, hne]

theorem spec_C9_witness : (exConv.forward exIn1 none).shape = [exConv.nb_cls] :=
  spec_C9 exConv exConv_wf 4 exIn1 (by decide) (by decide) rfl exIn1_wf
    (by decide)

/-- Claim C2 as written is false: it asserts that only the trailing
singleton dimension of the (batch, classes, 1) pipeline result is removed,
i.e. that the output shape is always (batch, classes); but `torch.squeeze`
with no dim argument removes every singleton dimension, so for a batch of
one sample the output shape is (classes,), not (1, classes). -/
theorem spec_C2_counterexample :
    (exConv.forward exIn1 none).shape = [2] ∧
    (exConv.forward exIn1 none).shape ≠ [1, 2] := by
  have H := exConv.forward_facts exConv_wf 4 exIn1 none (by decide) (by decide)
    (by decide) exIn1_wf (Or.inl rfl)
  constructor
  · rw [H.1]
    decide
  · rw [H.1]
    decide

/-- Claim C2 (amended): for every valid configuration and every batch of at
least two samples (the counterexample forces the batch = 1 case out: there
the leading singleton is removed as well), the ConvNet forward output has
shape (batch, nb_cls), and each row of its data, after exponentiation, sums
to 1. -/
theorem spec_C2 (net : ConvNet) (hwf : net.wf) (L : Nat)
    (x : List (List (List ℝ)))
    (histone_reverse : Option (List (List (List ℝ))))
    (hm : 0 < net.marks) (hc : 2 ≤ net.nb_cls) (hb : 2 ≤ x.length)
    (hxs : ∀ s ∈ x, sampleWf net.marks L s) (hL : 4 ≤ L)
    (hrev : histone_reverse = none ∨ ∃ y, histone_reverse = some y ∧
      y.length = x.length ∧ ∀ s ∈ y, sampleWf net.marks L s) :
    (net.forward x histone_reverse).shape = [x.length, net.nb_cls] ∧
    (chunkRows net.nb_cls (net.forward x histone_reverse).data).length
      = x.length ∧
    ∀ row ∈ chunkRows net.nb_cls (net.forward x histone_reverse).data,
      row.length = net.nb_cls ∧ (row.map Real.exp).sum = 1 := by
  have H := net.forward_facts hwf L x histone_reverse hm (by omega) (by omega)
    hxs hrev
  refine ⟨?_, H.2.1, H.2.2⟩
  rw [H.1]
  have h1 : x.length ≠ 1 := by omega
  have h2 : net.nb_cls ≠ 1 := by omega
  simp [squeezeShape, h1, h2]

theorem spec_C2_witness :
    (exConv.forward exIn2 none).shape = [exIn2.length, exConv.nb_cls] :=
  (spec_C2 exConv exConv_wf 4 exIn2 none (by decide) (by decide) (by decide)
    exIn2_wf (by decide) (Or.inl rfl)).1

theorem spec_C1_witness :
    ∃ M, exKim.forward false (fun _ _ => true) (fun _ _ => true)
        [0, 0] none = some M ∧ M.length = 2 ∧
      ∀ row ∈ M, row.length = exKim.nb_cls ∧ (row.map Real.exp).sum = 1 :=
  spec_C1 exKim false (fun _ _ => true) (fun _ _ => true) [0, 0] none 2
    exKim_wf (by decide) (by decide) rfl (Or.inl rfl)

theorem spec_C10_witness :
    ∃ M, exKim.forward false (fun _ _ => true) (fun _ _ => true)
        [0, 0, 0] none = some M ∧
      M.length = ([0, 0, 0] : List ℝ).length / (exKim.bins * exKim.marks) :=
  spec_C10 exKim false (fun _ _ => true) (fun _ _ => true) [0, 0, 0]
    (by decide) (by decide)

end DeepRegFinder
